import Mathlib

/-!
Verification of the hybrid tag-reconciliation pipeline of the farterrogator
image-tagging front end.

The development shallowly embeds the pure parts of `src/services/geminiService.ts`
and of the tag-vocabulary resolver (`src/components/Header.tsx`, tagService
section).  Network I/O is modelled by passing each HTTP call's decoded outcome
as an explicit argument (`Except` for calls whose failure the caller catches,
`Option` for responses that may be absent), and JavaScript strings are modelled
at the character-list level because the claims exercise per-character
behaviour (lowercasing, trimming, character classes).  Scores (JS numbers) are
modelled as rationals: the claims only use ordering, `Math.max` and division
by 100, on which ℚ agrees with IEEE doubles for the ranges involved.
-/

/-! ## Data model (src/types.ts) -/

/-- TagCategory: the category union type of src/types.ts. -/
inductive TagCategory where
  | general
  | character
  | copyright
  | artist
  | meta
  | rating
deriving DecidableEq, Repr

/-- Source union type `'local' | 'ollama' | 'both'` of src/types.ts
(`localTagger` stands for the TS literal `'local'`, a Lean keyword). -/
inductive TagSource where
  | localTagger
  | ollama
  | both
deriving DecidableEq, Repr

/-- Tag record of src/types.ts; `source` is optional there (`source?:`). -/
structure Tag where
  name : String
  score : ℚ
  category : TagCategory
  source : Option TagSource := none
deriving DecidableEq, Repr

/-- InterrogationResult record of src/types.ts (`naturalDescription?: string`). -/
structure InterrogationResult where
  tags : List Tag
  naturalDescription : Option String := none
deriving DecidableEq, Repr

/-! ## JavaScript string primitives, modelled at character level -/

/-- Whitespace per the ECMAScript WhiteSpace/LineTerminator productions:
the set trimmed by `String.prototype.trim` and matched by the regex class
`\s`. -/
def isJsWhitespace (c : Char) : Bool :=
  c = ' ' || c = '\t' || c = '\n' || c.toNat = 11 || c.toNat = 12 || c = '\r' ||
  c.toNat = 0xa0 || c.toNat = 0x1680 ||
  (0x2000 ≤ c.toNat && c.toNat ≤ 0x200a) ||
  c.toNat = 0x2028 || c.toNat = 0x2029 || c.toNat = 0x202f ||
  c.toNat = 0x205f || c.toNat = 0x3000 || c.toNat = 0xfeff

/-- Model of `String.prototype.trim`: drop leading and trailing whitespace. -/
def jsTrim (cs : List Char) : List Char :=
  ((cs.dropWhile isJsWhitespace).reverse.dropWhile isJsWhitespace).reverse

/-- Model of `String.prototype.startsWith` at character level. -/
def startsWithChars : List Char → List Char → Bool
  | [], _ => true
  | _, [] => false
  | p :: ps, c :: cs => p = c && startsWithChars ps cs

/-- Model of `s.startsWith(pat)`. -/
def jsStartsWith (s pat : String) : Bool :=
  startsWithChars pat.data s.data

/-- Embeds `normalizeTag` (geminiService.ts:660-663):
`tag.toLowerCase().trim().replace(/ /g, '_')`.  `toLowerCase` is modelled by
`Char.toLower` (ASCII case mapping — the range danbooru-style tags use). -/
def normalizeTag (tag : String) : String :=
  ⟨(jsTrim (tag.data.map Char.toLower)).map (fun c => if c = ' ' then '_' else c)⟩

/-- Normalized name of a tag, the key used by the merge map. -/
def tagKey (t : Tag) : String :=
  normalizeTag t.name

/-! ## Tag vocabulary resolver (src/components/Header.tsx, tagService section) -/

/-- Contents of the loaded `tagDatabase : Map<string, TagCategory>`
(name-to-category entries; `Map` keys are unique). -/
abbrev TagDb := List (String × TagCategory)

/-- Model of `tagDatabase.get(name)` (`Map.has`/`Map.get`). -/
def dbGet (db : TagDb) (name : String) : Option TagCategory :=
  (db.find? (fun p => p.1 = name)).map (·.2)

/-- Rating-word set of getCategory (Header.tsx:840). -/
def ratingWords : List String :=
  ["general", "safe", "questionable", "explicit", "sensitive", "nsfw"]

/-- Meta-keyword set of getCategory (Header.tsx:843). -/
def metaWords : List String :=
  ["highres", "absurdres", "4k", "8k", "masterpiece", "best quality", "comic",
   "monochrome", "greyscale", "lowres", "bad quality", "worst quality"]

/-- Subject-count word set of getCategory (Header.tsx:846). -/
def countWords : List String :=
  ["1girl", "1boy", "2girls", "2boys", "multiple girls", "multiple boys"]

/-- Embeds `getCategory` (Header.tsx:833-851): exact table lookup, then the
ordered heuristics, defaulting to `general`. -/
def getCategory (db : TagDb) (tagName : String) : TagCategory :=
  match dbGet db tagName with
  | some c => c
  | none =>
    if jsStartsWith tagName "rating:" || ratingWords.contains tagName then
      .rating
    else if metaWords.contains tagName then
      .meta
    else if countWords.contains tagName then
      .general
    else
      .general

/-- Modelled from the spec: `isTagInCategory`, imported by geminiService.ts:150
from ./tagService but absent from the sources (the tagService copy ends at
`getCategory`).  Spec §4.1: "Secondary contract: `isInCategory(name, category)
-> boolean`, used by enrichment to check candidate series names" — true exactly
when the reference table maps `name` to `category`. -/
def isTagInCategory (db : TagDb) (name : String) (cat : TagCategory) : Bool :=
  dbGet db name = some cat

/-! ## Sanitization (geminiService.ts:5-11) -/

/-- Character class `[\p{L}\p{N}\s,.<>?!@()]` of sanitizeDescription.  The
regex engine's Unicode Letter and Number tables are abstracted as the
parameters `pL` and `pN`. -/
def sanitizeAllowed (pL pN : Char → Bool) (c : Char) : Bool :=
  pL c || pN c || isJsWhitespace c ||
    [',', '.', '<', '>', '?', '!', '@', '(', ')'].contains c

/-- Embeds `sanitizeDescription` (geminiService.ts:5-11):
`text.replace(/[^\p{L}\p{N}\s,.<>?!@()]/gu, '')` — a global replace of every
disallowed character by the empty string, i.e. a left-to-right scan that keeps
exactly the allowed characters. -/
def sanitizeDescription (pL pN : Char → Bool) : List Char → List Char
  | [] => []
  | c :: cs =>
    if sanitizeAllowed pL pN c then c :: sanitizeDescription pL pN cs
    else sanitizeDescription pL pN cs

/-! ## Sorting

Every stage ends with `.sort((a, b) => b.score - a.score)`: a stable descending
sort by score, modelled by `List.mergeSort` (stable) with the corresponding
total order. -/

/-- Comparator: `a` may stay before `b` iff `b.score - a.score ≤ 0`. -/
def scoreDescLe (a b : Tag) : Bool :=
  b.score ≤ a.score

/-- Stable descending sort by score. -/
def sortByScoreDesc (l : List Tag) : List Tag :=
  l.mergeSort scoreDescLe

/-! ## Local tagger client (geminiService.ts:157-335) -/

/-- Score normalization of fetchLocalTags (geminiService.ts:279-281, 293-296):
`if (score > 1.0) score = score / 100`. -/
def normalizeScore (s : ℚ) : ℚ :=
  if s > 1 then s / 100 else s

/-- Shapes of the tag payload accepted by fetchLocalTags
(geminiService.ts:248-305).  The JSON-level extraction of a (name, score) pair
from each element — `item[0]/item[1]` for pair arrays,
`item.name || item.tag` / `item.score || item.confidence || item.probability`
for objects, `Object.entries` for the map shape — is abstracted to the pair
itself; the array branch's `if (name)` truthiness guard (skip empty names) is
kept. -/
inductive LocalTagsData where
  | objectMap (entries : List (String × ℚ))
  | arrayItems (items : List (String × ℚ))

/-- Per-shape extraction of raw (name, score) pairs (geminiService.ts:262-305);
the array branch keeps only truthy (non-empty) names. -/
def extractLocalItems : LocalTagsData → List (String × ℚ)
  | .objectMap entries => entries
  | .arrayItems items => items.filter (fun p => p.1 ≠ "")

/-- Known-hallucination names (geminiService.ts:310). -/
def hallucinationNames : List String :=
  ["blue_skin", "colored_skin"]

/-- Embeds the hallucination filter (geminiService.ts:307-314): drop
`blue_skin`/`colored_skin` when the (already normalized) score is below 0.85. -/
def hallucinationFilter (tags : List Tag) : List Tag :=
  tags.filter (fun tag => !(hallucinationNames.contains tag.name && tag.score < 0.85))

/-- Embeds the response-processing pipeline of `fetchLocalTags`
(geminiService.ts:252-324): build tags with normalized scores and resolved
categories, filter known hallucinations, sort descending by score, and apply
the client-side `maxTags` truncation (`slice(0, maxTags)` when
`settings?.maxTags && settings.maxTags > 0`). -/
def fetchLocalTags (db : TagDb) (data : LocalTagsData) (maxTags : Option Nat) :
    List Tag :=
  let tags : List Tag := (extractLocalItems data).map (fun p =>
    { name := p.1, score := normalizeScore p.2, category := getCategory db p.1 })
  let filteredTags := hallucinationFilter tags
  let sortedTags := sortByScoreDesc filteredTags
  match maxTags with
  | some m => if 0 < m then sortedTags.take m else sortedTags
  | none => sortedTags

/-! ## Merge engine (geminiService.ts:665-697)

The JS `Map` is modelled as an insertion-ordered association list:
`Map.set` replaces the value in place when the key exists (keeping its
position) and appends otherwise; `Map.values()` yields values in that order. -/

/-- Association-list model of `Map<string, Tag>`. -/
abbrev TagMap := List (String × Tag)

/-- Model of `combined.get(k)` / `combined.has(k)`. -/
def mapFind : TagMap → String → Option Tag
  | [], _ => none
  | p :: m, k => if p.1 = k then some p.2 else mapFind m k

/-- Model of `combined.set(k, v)`: replace the (unique — `Map` keys are
unique) existing entry in place, keeping its position, else append. -/
def mapSet : TagMap → String → Tag → TagMap
  | [], k, v => [(k, v)]
  | p :: m, k, v => if p.1 = k then (k, v) :: m else p :: mapSet m k v

/-- Step 1 of mergeTags (geminiService.ts:669-672): seed the map with each
local tag, source forced to `'local'`. -/
def mergeLocalStep (m : TagMap) (tag : Tag) : TagMap :=
  mapSet m (normalizeTag tag.name) { tag with source := some .localTagger }

/-- Step 2 of mergeTags (geminiService.ts:680-694): on parity take the maximum
score and source `'both'`; otherwise admit the Ollama tag only when there were
no local tags at all. -/
def mergeOllamaStep (hasLocalTags : Bool) (m : TagMap) (tag : Tag) : TagMap :=
  let normalized := normalizeTag tag.name
  match mapFind m normalized with
  | some existing =>
    mapSet m normalized
      { existing with score := max existing.score tag.score, source := some .both }
  | none =>
    if !hasLocalTags then mapSet m normalized { tag with source := some .ollama }
    else m

/-- Embeds `mergeTags` (geminiService.ts:665-697). -/
def mergeTags (localTags ollamaTags : List Tag) : List Tag :=
  let combined := localTags.foldl mergeLocalStep []
  let combined := ollamaTags.foldl (mergeOllamaStep (localTags.length > 0)) combined
  sortByScoreDesc (combined.map (·.2))

/-! ## Copyright resolution (geminiService.ts:782-876 and 1557-1627)

The network call and JSON extraction are abstracted: `reply` is the string
array parsed out of the model's response (`none` when the response is empty,
unparsable, or the transport failed — all of which return `[]`). -/

/-- Embeds `fetchOllamaCopyrights`, first variant (geminiService.ts:782-876):
every parsed name is normalized and emitted with category `'copyright'`;
a name confirmed in the vocabulary scores 0.9, an unconfirmed one is added
anyway at 0.85. -/
def fetchOllamaCopyrights (db : TagDb) (hasEndpoint : Bool)
    (characters : List String) (reply : Option (List String)) : List Tag :=
  if !hasEndpoint || characters.isEmpty then []
  else
    match reply with
    | none => []
    | some copyrights =>
      copyrights.map (fun name =>
        let normalized := normalizeTag name
        if isTagInCategory db normalized .copyright then
          { name := normalized, score := 0.9, category := .copyright,
            source := some .ollama }
        else
          { name := normalized, score := 0.85, category := .copyright,
            source := some .ollama })

/-- Embeds `fetchOllamaCopyrights`, second variant (geminiService.ts:1557-1627):
only names confirmed in the vocabulary as copyright are emitted, at score 0.8;
unconfirmed names are dropped. -/
def fetchOllamaCopyrightsV2 (db : TagDb) (hasEndpoint : Bool)
    (characters : List String) (reply : Option (List String)) : List Tag :=
  if !hasEndpoint || characters.isEmpty then []
  else
    match reply with
    | none => []
    | some copyrights =>
      copyrights.filterMap (fun name =>
        let normalized := normalizeTag name
        if isTagInCategory db normalized .copyright then
          some { name := normalized, score := 0.8, category := .copyright,
                 source := some .ollama }
        else
          none)

/-! ## Copyright enrichment (geminiService.ts:878-937) -/

/-- Capture of the regex `/.*\((.*?)\)/` (geminiService.ts:890): a greedy
prefix, so the match anchors on the last `'('` that is followed by some
`')'`, and the lazy group captures up to the first `')'` after it. -/
def extractSeries : List Char → Option (List Char)
  | [] => none
  | '(' :: rest =>
    match extractSeries rest with
    | some g => some g
    | none => if rest.contains ')' then some (rest.takeWhile (· ≠ ')')) else none
  | _ :: rest => extractSeries rest

/-- Mutable state of the enrichment loop: the growing `newTags` array, the
`existingNames` set, and the `charactersNeedingLookup` queue. -/
structure EnrichState where
  newTags : List Tag
  existingNames : List String
  charactersNeedingLookup : List String

/-- Loop body of the regex-extraction phase (geminiService.ts:887-920): a known
parenthetical series is appended as a copyright tag inheriting score and
source; an unknown one queues the original tag name for lookup; a
parenthesis-free character tag is queued as well. -/
def enrichStep (db : TagDb) (st : EnrichState) (tag : Tag) : EnrichState :=
  match extractSeries tag.name.data with
  | some g =>
    let seriesName := normalizeTag ⟨g⟩
    let isKnown := isTagInCategory db seriesName .copyright
    if isKnown && !st.existingNames.contains seriesName then
      { st with
        newTags := st.newTags ++
          [{ name := seriesName, score := tag.score, category := .copyright,
             source := tag.source }],
        existingNames := st.existingNames ++ [seriesName] }
    else if !st.existingNames.contains seriesName then
      { st with
        charactersNeedingLookup := st.charactersNeedingLookup ++ [tag.name] }
    else
      st
  | none =>
    if tag.category = .character then
      { st with
        charactersNeedingLookup := st.charactersNeedingLookup ++ [tag.name] }
    else
      st

/-- Embeds `enrichTagsWithCopyrights` (geminiService.ts:878-937): regex phase
over the input tags, one batched Ollama lookup for the queued names (merging
results not already present by name), and a final descending re-sort. -/
def enrichTagsWithCopyrights (db : TagDb) (hasEndpoint : Bool)
    (reply : Option (List String)) (currentTags : List Tag) : List Tag :=
  let st := currentTags.foldl (enrichStep db)
    ⟨currentTags, currentTags.map (·.name), []⟩
  let final :=
    if !st.charactersNeedingLookup.isEmpty && hasEndpoint then
      ((fetchOllamaCopyrights db hasEndpoint st.charactersNeedingLookup reply).foldl
        (fun acc tag =>
          if acc.2.contains tag.name then acc
          else (acc.1 ++ [tag], acc.2 ++ [tag.name]))
        (st.newTags, st.existingNames)).1
    else
      st.newTags
  sortByScoreDesc final

/-! ## Pipeline orchestrator (geminiService.ts:939-987) -/

/-- Value `fetchOllamaTagsAndSummary` resolves to on a missing endpoint or any
caught failure: `{ tags: [], summary: "" }` (geminiService.ts:705, 778) — note
the summary is the empty string, not `undefined`. -/
def ollamaFailureValue : List Tag × Option String :=
  ([], some "")

/-- Embeds `generateTagsLocalHybrid` (geminiService.ts:939-987).  Each stage's
network outcome is passed in as an `Except` (`.error` = the awaited promise
rejected, caught by the stage's try/catch): a failed local fetch leaves
`localTags` empty, a failed enrichment keeps the previous `localTags`, a failed
(or disabled) Ollama stage leaves `{ tags: [], summary: undefined }`, and the
pipeline always returns a merged `InterrogationResult`. -/
def generateTagsLocalHybrid
    (localOutcome : Except String (List Tag))
    (enrichOutcome : List Tag → Except String (List Tag))
    (enableNaturalLanguage : Bool)
    (ollamaOutcome : List Tag → Except String (List Tag × Option String)) :
    InterrogationResult :=
  let localTags : List Tag :=
    match localOutcome with
    | .ok t => t
    | .error _ => []
  let localTags : List Tag :=
    match enrichOutcome localTags with
    | .ok t => t
    | .error _ => localTags
  let ollamaData : List Tag × Option String :=
    if enableNaturalLanguage then
      match ollamaOutcome localTags with
      | .ok d => d
      | .error _ => ([], none)
    else
      ([], none)
  { tags := mergeTags localTags ollamaData.1,
    naturalDescription := ollamaData.2 }

/-! ## Lemmas about the Map model -/

/-- Keys of the association-list map, in insertion order. -/
def mapKeys (m : TagMap) : List String :=
  m.map (·.1)

theorem mapFind_set_self (m : TagMap) (k : String) (v : Tag) :
    mapFind (mapSet m k v) k = some v := by
  induction m with
  | nil => simp [mapSet, mapFind]
  | cons p m ih =>
    by_cases hp : p.1 = k
    · simp [mapSet, hp, mapFind]
    · simp [mapSet, hp, mapFind, ih]

theorem mapFind_set_ne (m : TagMap) {k k' : String} (v : Tag)
    (h : k' ≠ k) : mapFind (mapSet m k v) k' = mapFind m k' := by
  induction m with
  | nil => simp [mapSet, mapFind, Ne.symm h]
  | cons p m ih =>
    by_cases hp : p.1 = k
    · have hpk' : ¬(p.1 = k') := by rw [hp]; exact Ne.symm h
      simp [mapSet, hp, mapFind, Ne.symm h, hpk']
    · by_cases hp' : p.1 = k'
      · rw [mapSet, if_neg hp, mapFind, if_pos hp', mapFind, if_pos hp']
      · rw [mapSet, if_neg hp, mapFind, if_neg hp', mapFind, if_neg hp', ih]

theorem mem_mapSet {m : TagMap} {k : String} {v : Tag} {p : String × Tag}
    (h : p ∈ mapSet m k v) : p = (k, v) ∨ p ∈ m := by
  induction m with
  | nil => simpa [mapSet] using h
  | cons q m ih =>
    by_cases hq : q.1 = k
    · rw [mapSet, if_pos hq] at h
      rcases List.mem_cons.mp h with h1 | h1
      · exact Or.inl h1
      · exact Or.inr (List.mem_cons_of_mem _ h1)
    · rw [mapSet, if_neg hq] at h
      rcases List.mem_cons.mp h with h1 | h1
      · exact Or.inr (h1 ▸ List.mem_cons_self _ _)
      · rcases ih h1 with h2 | h2
        · exact Or.inl h2
        · exact Or.inr (List.mem_cons_of_mem _ h2)

theorem mapSet_mem_self (m : TagMap) (k : String) (v : Tag) :
    (k, v) ∈ mapSet m k v := by
  induction m with
  | nil => simp [mapSet]
  | cons q m ih =>
    by_cases hq : q.1 = k
    · simp [mapSet, hq]
    · rw [mapSet, if_neg hq]
      exact List.mem_cons_of_mem _ ih

theorem mapFind_eq_some_mem {m : TagMap} {k : String} {t : Tag}
    (h : mapFind m k = some t) : (k, t) ∈ m := by
  induction m with
  | nil => simp [mapFind] at h
  | cons p m ih =>
    by_cases hp : p.1 = k
    · rw [mapFind, if_pos hp] at h
      have : t = p.2 := by simpa using h.symm
      rw [this, ← hp]
      exact List.mem_cons_self _ _
    · rw [mapFind, if_neg hp] at h
      exact List.mem_cons_of_mem _ (ih h)

theorem mapFind_isSome_iff (m : TagMap) (k : String) :
    (mapFind m k).isSome ↔ k ∈ mapKeys m := by
  induction m with
  | nil => simp [mapFind, mapKeys]
  | cons p m ih =>
    by_cases hp : p.1 = k
    · simp [mapFind, hp, mapKeys]
    · simp only [mapFind, if_neg hp, mapKeys, List.map_cons, List.mem_cons]
      rw [ih]
      simp [mapKeys, Ne.symm (fun h => hp h.symm)]
      tauto

theorem mapFind_eq_none_iff (m : TagMap) (k : String) :
    mapFind m k = none ↔ k ∉ mapKeys m := by
  rw [← mapFind_isSome_iff, Option.isSome_iff_ne_none]
  tauto

theorem mapKeys_set (m : TagMap) (k : String) (v : Tag) :
    mapKeys (mapSet m k v) =
      if k ∈ mapKeys m then mapKeys m else mapKeys m ++ [k] := by
  induction m with
  | nil => simp [mapSet, mapKeys]
  | cons p m ih =>
    by_cases hp : p.1 = k
    · have hmem : k ∈ mapKeys (p :: m) := by
        simp [mapKeys, hp]
      rw [mapSet, if_pos hp, if_pos hmem]
      simp [mapKeys, hp]
    · have hk : (k ∈ mapKeys (p :: m)) ↔ (k ∈ mapKeys m) := by
        simp only [mapKeys, List.map_cons, List.mem_cons]
        have : ¬(k = p.1) := fun hh => hp hh.symm
        tauto
      rw [mapSet, if_neg hp]
      by_cases hm : k ∈ mapKeys m
      · rw [if_pos (hk.mpr hm)]
        simp only [mapKeys, List.map_cons] at *
        rw [ih, if_pos hm]
      · rw [if_neg (fun hh => hm (hk.mp hh))]
        simp only [mapKeys, List.map_cons] at *
        rw [ih, if_neg hm]
        simp

theorem mapSet_of_not_mem {m : TagMap} {k : String} (v : Tag)
    (h : k ∉ mapKeys m) : mapSet m k v = m ++ [(k, v)] := by
  induction m with
  | nil => simp [mapSet]
  | cons p m ih =>
    have hp : ¬(p.1 = k) := by
      intro hh
      exact h (by simp [mapKeys, hh])
    have hm : k ∉ mapKeys m := by
      intro hh
      exact h (by simp [mapKeys] at hh ⊢; tauto)
    rw [mapSet, if_neg hp, ih hm]
    simp

theorem nodup_mapKeys_set {m : TagMap} {k : String} (v : Tag)
    (h : (mapKeys m).Nodup) : (mapKeys (mapSet m k v)).Nodup := by
  rw [mapKeys_set]
  by_cases hk : k ∈ mapKeys m
  · simpa [hk] using h
  · simp only [hk, if_false]
    simpa [List.nodup_append] using ⟨h, fun he => hk he⟩

theorem mem_mapKeys_set_self (m : TagMap) (k : String) (v : Tag) :
    k ∈ mapKeys (mapSet m k v) := by
  rw [mapKeys_set]
  by_cases hk : k ∈ mapKeys m <;> simp [hk]

theorem mapKeys_set_subset {m : TagMap} {k k' : String} {v : Tag}
    (h : k' ∈ mapKeys (mapSet m k v)) : k' ∈ mapKeys m ∨ k' = k := by
  rw [mapKeys_set] at h
  by_cases hk : k ∈ mapKeys m
  · rw [if_pos hk] at h
    exact Or.inl h
  · rw [if_neg hk] at h
    simpa using List.mem_append.mp h

/-! ## Well-formedness of the merge map -/

/-- Invariant of the merge map: keys are unique and every entry's key is the
normalized name of its value (the code only ever calls `set` that way). -/
def MapWF (m : TagMap) : Prop :=
  (mapKeys m).Nodup ∧ ∀ p ∈ m, p.1 = tagKey p.2

theorem mapWF_nil : MapWF [] :=
  ⟨List.nodup_nil, by simp⟩

theorem mapWF_set {m : TagMap} {k : String} {v : Tag}
    (h : MapWF m) (hk : k = tagKey v) : MapWF (mapSet m k v) := by
  refine ⟨nodup_mapKeys_set v h.1, fun p hp => ?_⟩
  rcases mem_mapSet hp with h1 | h1
  · rw [h1]; exact hk
  · exact h.2 p h1

theorem mapWF_localStep {m : TagMap} (tag : Tag) (h : MapWF m) :
    MapWF (mergeLocalStep m tag) :=
  mapWF_set h rfl

theorem mapWF_ollamaStep {m : TagMap} (hl : Bool) (tag : Tag) (h : MapWF m) :
    MapWF (mergeOllamaStep hl m tag) := by
  unfold mergeOllamaStep
  cases hf : mapFind m (normalizeTag tag.name) with
  | some existing =>
    simp only [hf]
    refine mapWF_set h ?_
    have h1 := h.2 _ (mapFind_eq_some_mem hf)
    simpa [tagKey] using h1
  | none =>
    simp only [hf]
    by_cases hb : hl
    · simpa [hb] using h
    · simp only [hb, Bool.not_false, if_pos]
      exact mapWF_set h rfl

theorem mapWF_foldl_local {m : TagMap} (L : List Tag) (h : MapWF m) :
    MapWF (L.foldl mergeLocalStep m) := by
  induction L generalizing m with
  | nil => exact h
  | cons a as ih => exact ih (mapWF_localStep a h)

theorem mapWF_foldl_ollama {m : TagMap} (hl : Bool) (O : List Tag) (h : MapWF m) :
    MapWF (O.foldl (mergeOllamaStep hl) m) := by
  induction O generalizing m with
  | nil => exact h
  | cons a as ih => exact ih (mapWF_ollamaStep hl a h)

/-! ## Find/keys behaviour of the merge folds -/

theorem mapFind_localStep_ne {m : TagMap} {tag : Tag} {n : String}
    (h : tagKey tag ≠ n) : mapFind (mergeLocalStep m tag) n = mapFind m n :=
  mapFind_set_ne m _ (fun he => h (show tagKey tag = n from he.symm))

theorem mapFind_foldl_local_of_ne {m : TagMap} {L : List Tag} {n : String}
    (h : ∀ l ∈ L, tagKey l ≠ n) :
    mapFind (L.foldl mergeLocalStep m) n = mapFind m n := by
  induction L generalizing m with
  | nil => rfl
  | cons a as ih =>
    rw [List.foldl_cons, ih (fun l hl => h l (List.mem_cons_of_mem _ hl)),
      mapFind_localStep_ne (h a (List.mem_cons_self _ _))]

theorem mapFind_ollamaStep_ne {m : TagMap} {hl : Bool} {tag : Tag} {n : String}
    (h : tagKey tag ≠ n) : mapFind (mergeOllamaStep hl m tag) n = mapFind m n := by
  have hne : n ≠ normalizeTag tag.name := fun he => h (show tagKey tag = n from he.symm)
  unfold mergeOllamaStep
  cases hf : mapFind m (normalizeTag tag.name) with
  | some existing =>
    simp only [hf]
    exact mapFind_set_ne m _ hne
  | none =>
    simp only [hf]
    by_cases hb : hl
    · simp [hb]
    · simp only [hb, Bool.not_false, if_pos]
      exact mapFind_set_ne m _ hne

theorem mapFind_foldl_ollama_of_ne {m : TagMap} {hl : Bool} {O : List Tag}
    {n : String} (h : ∀ o ∈ O, tagKey o ≠ n) :
    mapFind (O.foldl (mergeOllamaStep hl) m) n = mapFind m n := by
  induction O generalizing m with
  | nil => rfl
  | cons a as ih =>
    rw [List.foldl_cons, ih (fun o ho => h o (List.mem_cons_of_mem _ ho)),
      mapFind_ollamaStep_ne (h a (List.mem_cons_self _ _))]

theorem countP_cons_eq_one_head {α : Type} {p : α → Bool} {a : α} {as : List α}
    (hc : (a :: as).countP p = 1) (ha : p a = true) : as.countP p = 0 := by
  simp [List.countP_cons, ha] at hc
  exact List.countP_eq_zero.mpr (fun x hx => by simp [hc x hx])

theorem countP_cons_eq_one_tail {α : Type} {p : α → Bool} {a : α} {as : List α}
    (hc : (a :: as).countP p = 1) (ha : p a = false) : as.countP p = 1 := by
  simpa [List.countP_cons, ha] using hc

theorem not_mem_of_countP_zero {α : Type} {p : α → Bool} {as : List α}
    (hc : as.countP p = 0) : ∀ a ∈ as, p a = false := by
  intro a ha
  by_contra hpa
  have : 0 < as.countP p := List.countP_pos_iff.mpr ⟨a, ha, by simpa using hpa⟩
  omega

theorem mapFind_foldl_local_unique {L : List Tag} {n : String} {l : Tag}
    (hc : L.countP (fun x => tagKey x = n) = 1) (hl : l ∈ L) (hk : tagKey l = n)
    (m : TagMap) :
    mapFind (L.foldl mergeLocalStep m) n =
      some { l with source := some .localTagger } := by
  induction L generalizing m with
  | nil => cases hl
  | cons a as ih =>
    rw [List.foldl_cons]
    by_cases ha : tagKey a = n
    · have hc0 : as.countP (fun x => tagKey x = n) = 0 :=
        countP_cons_eq_one_head hc (by simpa using ha)
      have hrest : ∀ o ∈ as, tagKey o ≠ n := by
        intro o ho
        have := not_mem_of_countP_zero hc0 o ho
        simpa using this
      have hla : l = a := by
        rcases List.mem_cons.mp hl with h1 | h1
        · exact h1
        · exact absurd hk (hrest l h1)
      subst hla
      rw [mapFind_foldl_local_of_ne hrest]
      unfold mergeLocalStep
      rw [show normalizeTag l.name = n from hk]
      exact mapFind_set_self m n _
    · have hc' : as.countP (fun x => tagKey x = n) = 1 :=
        countP_cons_eq_one_tail hc (by simpa using ha)
      have hl' : l ∈ as := by
        rcases List.mem_cons.mp hl with h1 | h1
        · exact absurd (h1 ▸ hk) ha
        · exact h1
      exact ih hc' hl' (mergeLocalStep m a)

theorem mergeOllamaStep_found {m : TagMap} {tag existing : Tag} (hl : Bool)
    (hf : mapFind m (normalizeTag tag.name) = some existing) :
    mergeOllamaStep hl m tag =
      mapSet m (normalizeTag tag.name)
        { existing with
          score := max existing.score tag.score
          source := some .both } := by
  unfold mergeOllamaStep
  simp only [hf]

theorem mergeOllamaStep_none {m : TagMap} {tag : Tag} (hl : Bool)
    (hf : mapFind m (normalizeTag tag.name) = none) :
    mergeOllamaStep hl m tag =
      if !hl then
        mapSet m (normalizeTag tag.name) { tag with source := some .ollama }
      else m := by
  unfold mergeOllamaStep
  simp only [hf]

theorem mapFind_foldl_ollama_update {O : List Tag} {n : String} {o v : Tag}
    {hl : Bool} {m : TagMap} (hm : mapFind m n = some v)
    (hc : O.countP (fun x => tagKey x = n) = 1) (ho : o ∈ O) (hk : tagKey o = n) :
    mapFind (O.foldl (mergeOllamaStep hl) m) n =
      some { v with score := max v.score o.score, source := some .both } := by
  induction O generalizing m with
  | nil => cases ho
  | cons a as ih =>
    rw [List.foldl_cons]
    by_cases ha : tagKey a = n
    · have hc0 : as.countP (fun x => tagKey x = n) = 0 :=
        countP_cons_eq_one_head hc (by simpa using ha)
      have hrest : ∀ x ∈ as, tagKey x ≠ n := by
        intro x hx
        have := not_mem_of_countP_zero hc0 x hx
        simpa using this
      have hoa : o = a := by
        rcases List.mem_cons.mp ho with h1 | h1
        · exact h1
        · exact absurd hk (hrest o h1)
      subst hoa
      rw [mapFind_foldl_ollama_of_ne hrest]
      have hfo : mapFind m (normalizeTag o.name) = some v := by
        rw [show normalizeTag o.name = n from hk]
        exact hm
      rw [mergeOllamaStep_found hl hfo, show normalizeTag o.name = n from hk]
      exact mapFind_set_self m n _
    · have hc' : as.countP (fun x => tagKey x = n) = 1 :=
        countP_cons_eq_one_tail hc (by simpa using ha)
      have ho' : o ∈ as := by
        rcases List.mem_cons.mp ho with h1 | h1
        · exact absurd (h1 ▸ hk) ha
        · exact h1
      have hm' : mapFind (mergeOllamaStep hl m a) n = some v := by
        rw [mapFind_ollamaStep_ne ha, hm]
      exact ih hm' hc' ho'

theorem mapFind_foldl_ollama_fresh {O : List Tag} {n : String} {o : Tag}
    {m : TagMap} (hm : n ∉ mapKeys m)
    (hc : O.countP (fun x => tagKey x = n) = 1) (ho : o ∈ O) (hk : tagKey o = n) :
    mapFind (O.foldl (mergeOllamaStep false) m) n =
      some { o with source := some .ollama } := by
  induction O generalizing m with
  | nil => cases ho
  | cons a as ih =>
    rw [List.foldl_cons]
    by_cases ha : tagKey a = n
    · have hc0 : as.countP (fun x => tagKey x = n) = 0 :=
        countP_cons_eq_one_head hc (by simpa using ha)
      have hrest : ∀ x ∈ as, tagKey x ≠ n := by
        intro x hx
        have := not_mem_of_countP_zero hc0 x hx
        simpa using this
      have hoa : o = a := by
        rcases List.mem_cons.mp ho with h1 | h1
        · exact h1
        · exact absurd hk (hrest o h1)
      subst hoa
      rw [mapFind_foldl_ollama_of_ne hrest]
      have hfind : mapFind m (normalizeTag o.name) = none := by
        rw [show normalizeTag o.name = n from hk]
        exact (mapFind_eq_none_iff m n).mpr hm
      rw [mergeOllamaStep_none false hfind]
      simp only [Bool.not_false, if_pos]
      rw [show normalizeTag o.name = n from hk]
      exact mapFind_set_self m n _
    · have hc' : as.countP (fun x => tagKey x = n) = 1 :=
        countP_cons_eq_one_tail hc (by simpa using ha)
      have ho' : o ∈ as := by
        rcases List.mem_cons.mp ho with h1 | h1
        · exact absurd (h1 ▸ hk) ha
        · exact h1
      have hm' : n ∉ mapKeys (mergeOllamaStep false m a) := by
        intro hmem
        rcases hfa : mapFind m (normalizeTag a.name) with _ | existing
        · rw [mergeOllamaStep_none false hfa] at hmem
          simp only [Bool.not_false, if_pos] at hmem
          rcases mapKeys_set_subset hmem with h1 | h1
          · exact hm h1
          · exact ha h1.symm
        · rw [mergeOllamaStep_found false hfa] at hmem
          rcases mapKeys_set_subset hmem with h1 | h1
          · exact hm h1
          · exact ha h1.symm
      exact ih hm' hc' ho'

theorem mem_mapKeys_ollamaStep_mono {m : TagMap} {hl : Bool} {tag : Tag}
    {k : String} (h : k ∈ mapKeys m) : k ∈ mapKeys (mergeOllamaStep hl m tag) := by
  rcases hf : mapFind m (normalizeTag tag.name) with _ | existing
  · rw [mergeOllamaStep_none hl hf]
    by_cases hb : hl
    · simp only [hb, Bool.not_true]
      simpa using h
    · simp only [eq_false_of_ne_true hb, Bool.not_false, if_pos]
      rw [mapKeys_set]
      split_ifs with hmem
      · exact h
      · exact List.mem_append_left _ h
  · rw [mergeOllamaStep_found hl hf, mapKeys_set]
    split_ifs with hmem
    · exact h
    · exact List.mem_append_left _ h

theorem mem_mapKeys_foldl_ollama_mono {O : List Tag} {m : TagMap} {hl : Bool}
    {k : String} (h : k ∈ mapKeys m) :
    k ∈ mapKeys (O.foldl (mergeOllamaStep hl) m) := by
  induction O generalizing m with
  | nil => exact h
  | cons a as ih => exact ih (mem_mapKeys_ollamaStep_mono h)

theorem mem_mapKeys_ollamaStep_self_false (m : TagMap) (tag : Tag) :
    tagKey tag ∈ mapKeys (mergeOllamaStep false m tag) := by
  rcases hf : mapFind m (normalizeTag tag.name) with _ | existing
  · rw [mergeOllamaStep_none false hf]
    simp only [Bool.not_false, if_pos]
    exact mem_mapKeys_set_self m _ _
  · rw [mergeOllamaStep_found false hf]
    exact mem_mapKeys_set_self m _ _

theorem mem_mapKeys_foldl_ollama_false {O : List Tag} {o : Tag} {m : TagMap}
    (ho : o ∈ O) : tagKey o ∈ mapKeys (O.foldl (mergeOllamaStep false) m) := by
  induction O generalizing m with
  | nil => cases ho
  | cons a as ih =>
    rw [List.foldl_cons]
    rcases List.mem_cons.mp ho with h1 | h1
    · subst h1
      exact mem_mapKeys_foldl_ollama_mono (mem_mapKeys_ollamaStep_self_false m o)
    · exact ih h1

theorem mapKeys_ollamaStep_true (m : TagMap) (tag : Tag) :
    mapKeys (mergeOllamaStep true m tag) = mapKeys m := by
  rcases hf : mapFind m (normalizeTag tag.name) with _ | existing
  · rw [mergeOllamaStep_none true hf]
    simp
  · rw [mergeOllamaStep_found true hf, mapKeys_set, if_pos]
    rw [← mapFind_isSome_iff, hf]
    rfl

theorem mapKeys_foldl_ollama_true (O : List Tag) (m : TagMap) :
    mapKeys (O.foldl (mergeOllamaStep true) m) = mapKeys m := by
  induction O generalizing m with
  | nil => rfl
  | cons a as ih => rw [List.foldl_cons, ih, mapKeys_ollamaStep_true]

theorem mapKeys_foldl_local_subset {L : List Tag} {m : TagMap} {k : String}
    (h : k ∈ mapKeys (L.foldl mergeLocalStep m)) :
    k ∈ mapKeys m ∨ ∃ l ∈ L, tagKey l = k := by
  induction L generalizing m with
  | nil => exact Or.inl h
  | cons a as ih =>
    rw [List.foldl_cons] at h
    rcases ih h with h1 | ⟨l, hl, hlk⟩
    · unfold mergeLocalStep at h1
      rcases mapKeys_set_subset h1 with h2 | h2
      · exact Or.inl h2
      · exact Or.inr ⟨a, List.mem_cons_self _ _, h2.symm⟩
    · exact Or.inr ⟨l, List.mem_cons_of_mem _ hl, hlk⟩

/-! ## Values of a well-formed map -/

theorem value_mem_of_mapFind {m : TagMap} {n : String} {t : Tag}
    (hm : mapFind m n = some t) : t ∈ m.map (·.2) :=
  List.mem_map.mpr ⟨(n, t), mapFind_eq_some_mem hm, rfl⟩

theorem tagKey_mem_mapKeys_of_value {m : TagMap} {t : Tag} (h : MapWF m)
    (ht : t ∈ m.map (·.2)) : tagKey t ∈ mapKeys m := by
  obtain ⟨p, hp, hpt⟩ := List.mem_map.mp ht
  have := h.2 p hp
  rw [hpt] at this
  exact this ▸ List.mem_map_of_mem _ hp

theorem countP_values_eq_one {m : TagMap} {n : String} (h : MapWF m)
    (hk : n ∈ mapKeys m) :
    (m.map (·.2)).countP (fun t => tagKey t = n) = 1 := by
  induction m with
  | nil => simp [mapKeys] at hk
  | cons p m ih =>
    have hnd := h.1
    rw [mapKeys, List.map_cons, List.nodup_cons] at hnd
    have hwf : MapWF m := ⟨hnd.2, fun q hq => h.2 q (List.mem_cons_of_mem _ hq)⟩
    have hp1 : p.1 = tagKey p.2 := h.2 p (List.mem_cons_self _ _)
    by_cases hp : p.1 = n
    · have hz : (m.map (·.2)).countP (fun t => tagKey t = n) = 0 := by
        refine List.countP_eq_zero.mpr (fun t ht => ?_)
        have hmem := tagKey_mem_mapKeys_of_value hwf ht
        simp only [decide_eq_true_eq]
        intro he
        rw [he, ← hp] at hmem
        exact hnd.1 (by simpa [mapKeys] using hmem)
      rw [List.map_cons, List.countP_cons, hz]
      have : tagKey p.2 = n := hp1 ▸ hp
      simp [this]
    · have hk' : n ∈ mapKeys m := by
        rw [mapKeys, List.map_cons] at hk
        rcases List.mem_cons.mp hk with h1 | h1
        · exact absurd h1.symm hp
        · exact h1
      have hne : ¬(tagKey p.2 = n) := fun he => hp (hp1 ▸ he)
      rw [List.map_cons, List.countP_cons]
      simp only [hne, decide_False]
      simpa using ih hwf hk'

/-! ## Sort bridges -/

theorem mem_sortByScoreDesc {t : Tag} {l : List Tag} :
    t ∈ sortByScoreDesc l ↔ t ∈ l :=
  List.mem_mergeSort

theorem sortByScoreDesc_perm (l : List Tag) : (sortByScoreDesc l).Perm l :=
  List.mergeSort_perm l _

theorem sortByScoreDesc_sorted (l : List Tag) :
    (sortByScoreDesc l).Pairwise (fun a b => b.score ≤ a.score) := by
  have h := @List.sorted_mergeSort Tag scoreDescLe
    (fun a b c hab hbc => by
      simp only [scoreDescLe, decide_eq_true_eq] at *
      exact le_trans hbc hab)
    (fun a b => by
      simp only [scoreDescLe, Bool.or_eq_true, decide_eq_true_eq]
      exact le_total b.score a.score)
    l
  exact h.imp (fun hab => by simpa [scoreDescLe] using hab)

theorem sortByScoreDesc_of_sorted {l : List Tag}
    (h : l.Pairwise (fun a b => b.score ≤ a.score)) : sortByScoreDesc l = l :=
  List.mergeSort_of_sorted (h.imp (fun hab => by simpa [scoreDescLe] using hab))

/-! ## Bridge between mergeTags and the map folds -/

/-- The finished merge map, before value extraction and sorting. -/
def mergeMap (localTags ollamaTags : List Tag) : TagMap :=
  ollamaTags.foldl (mergeOllamaStep (localTags.length > 0))
    (localTags.foldl mergeLocalStep [])

theorem mergeTags_eq_sort (L O : List Tag) :
    mergeTags L O = sortByScoreDesc ((mergeMap L O).map (·.2)) := rfl

theorem mapWF_mergeMap (L O : List Tag) : MapWF (mergeMap L O) :=
  mapWF_foldl_ollama _ O (mapWF_foldl_local L mapWF_nil)

/-! ## Claim theorems -/

/-- C1: for every list of local tags and every list of reasoning-model tags, a
reasoning-model tag whose normalized name matches no local tag's normalized
name appears in the output of mergeTags iff the local tag list is empty; when
admitted this way and its normalized name is unique among the reasoning-model
tags, its source in the output is `'ollama'`; and when at least one local tag
exists every such reasoning-only tag is absent from the output.  (Amended: a
duplicated reasoning-only normalized name is promoted to source `'both'` by
the parity branch, see the counterexample.) -/
theorem mergeTags_reasoningOnly_fallback (L O : List Tag) (o : Tag)
    (ho : o ∈ O) (hnl : ∀ l ∈ L, tagKey l ≠ tagKey o) :
    ((∃ t ∈ mergeTags L O, tagKey t = tagKey o) ↔ L = [])
    ∧ (L = [] → O.countP (fun x => tagKey x = tagKey o) = 1 →
        ∃ t ∈ mergeTags L O, tagKey t = tagKey o ∧ t.source = some .ollama)
    ∧ (L ≠ [] → ∀ t ∈ mergeTags L O, tagKey t ≠ tagKey o) := by
  have habsent : L ≠ [] → ∀ t ∈ mergeTags L O, tagKey t ≠ tagKey o := by
    intro hL t ht hkey
    have hb : (decide (L.length > 0)) = true :=
      decide_eq_true (List.length_pos.mpr hL)
    have hmem : t ∈ (mergeMap L O).map (·.2) := by
      rw [mergeTags_eq_sort] at ht
      exact mem_sortByScoreDesc.mp ht
    have hkeys : tagKey t ∈ mapKeys (mergeMap L O) :=
      tagKey_mem_mapKeys_of_value (mapWF_mergeMap L O) hmem
    rw [mergeMap, hb, mapKeys_foldl_ollama_true] at hkeys
    rcases mapKeys_foldl_local_subset hkeys with h1 | ⟨l, hlm, hlk⟩
    · simp [mapKeys] at h1
    · exact hnl l hlm (hlk.trans hkey)
  have hexists : L = [] → ∃ t ∈ mergeTags L O, tagKey t = tagKey o := by
    intro hL
    subst hL
    have hb : (decide (([] : List Tag).length > 0)) = false := by decide
    have hkeys : tagKey o ∈ mapKeys (mergeMap [] O) := by
      rw [mergeMap, hb]
      exact mem_mapKeys_foldl_ollama_false ho
    obtain ⟨t, hfind⟩ := Option.isSome_iff_exists.mp
      ((mapFind_isSome_iff _ _).mpr hkeys)
    have hmem := value_mem_of_mapFind hfind
    have hkey : tagKey o = tagKey t :=
      (mapWF_mergeMap [] O).2 _ (mapFind_eq_some_mem hfind)
    refine ⟨t, ?_, hkey.symm⟩
    rw [mergeTags_eq_sort]
    exact mem_sortByScoreDesc.mpr hmem
  refine ⟨⟨fun ⟨t, ht, hkey⟩ => ?_, hexists⟩, fun hL hc => ?_, habsent⟩
  · by_contra hL
    exact habsent hL t ht hkey
  · subst hL
    have hb : (decide (([] : List Tag).length > 0)) = false := by decide
    have hfresh : tagKey o ∉ mapKeys ([] : TagMap) := by simp [mapKeys]
    have hfind : mapFind (mergeMap [] O) (tagKey o) =
        some { o with source := some .ollama } := by
      rw [mergeMap, hb]
      exact mapFind_foldl_ollama_fresh hfresh hc ho rfl
    refine ⟨{ o with source := some .ollama }, ?_, rfl, rfl⟩
    rw [mergeTags_eq_sort]
    exact mem_sortByScoreDesc.mpr (value_mem_of_mapFind hfind)

/-- C1 counterexample: with no local tags and the reasoning-model list
containing the same normalized name twice, the admitted tag ends up with
source `'both'` (the second occurrence takes the parity branch), not
`'ollama'` as the claim states. -/
theorem mergeTags_reasoningOnly_counterexample :
    ∃ t ∈ mergeTags []
      [{ name := "a", score := 0, category := .general, source := some .ollama },
       { name := "a", score := 0, category := .general, source := some .ollama }],
      tagKey t = normalizeTag "a" ∧ t.source ≠ some TagSource.ollama := by
  have hkey : normalizeTag "a" = "a" := by decide
  have hmap : mergeMap []
      [{ name := "a", score := 0, category := .general, source := some .ollama },
       { name := "a", score := 0, category := .general, source := some .ollama }] =
      [("a", { name := "a", score := max 0 0, category := .general,
               source := some .both })] := by
    simp [mergeMap, mergeOllamaStep, mapFind, mapSet, hkey]
  rw [mergeTags_eq_sort, hmap]
  simp only [List.map_cons, List.map_nil]
  rw [sortByScoreDesc_of_sorted (by simp)]
  exact ⟨_, List.mem_singleton.mpr rfl, by rw [tagKey, hkey], by simp⟩

/-- C1 witness: the amended theorem applied at the spec's merge-fallback
example, `local = []`, `reasoning = [{name:"b",score:0.7}]`. -/
theorem mergeTags_reasoningOnly_fallback_witness :
    ((∃ t ∈ mergeTags []
        [{ name := "b", score := 0.7, category := .general, source := some .ollama }],
        tagKey t = tagKey { name := "b", score := 0.7, category := .general,
                            source := some .ollama }) ↔ ([] : List Tag) = [])
    ∧ (∃ t ∈ mergeTags []
        [{ name := "b", score := 0.7, category := .general, source := some .ollama }],
        tagKey t = tagKey { name := "b", score := 0.7, category := .general,
                            source := some .ollama } ∧ t.source = some .ollama) := by
  have h := mergeTags_reasoningOnly_fallback []
    [{ name := "b", score := 0.7, category := .general, source := some .ollama }]
    { name := "b", score := 0.7, category := .general, source := some .ollama }
    (List.mem_singleton.mpr rfl) (by simp)
  exact ⟨h.1, h.2.1 rfl (by decide)⟩

/-- C2: whenever a reasoning-model tag's normalized name equals that of some
local tag and that normalized name occurs exactly once in each input list, the
output of mergeTags contains exactly one tag under the name, carrying the
local tag's name and category, the maximum of the two scores, and source
`'both'`.  (Amended: the per-list uniqueness hypotheses are necessary — the
map seeding makes the last duplicate local tag win, see the counterexample.) -/
theorem mergeTags_parityBoost (L O : List Tag) (l o : Tag)
    (hl : l ∈ L) (ho : o ∈ O) (hk : tagKey l = tagKey o)
    (hcl : L.countP (fun x => tagKey x = tagKey o) = 1)
    (hco : O.countP (fun x => tagKey x = tagKey o) = 1) :
    (mergeTags L O).countP (fun t => tagKey t = tagKey o) = 1
    ∧ ∃ t ∈ mergeTags L O, tagKey t = tagKey o ∧ t.name = l.name
        ∧ t.score = max l.score o.score ∧ t.category = l.category
        ∧ t.source = some .both := by
  have hseed : mapFind (L.foldl mergeLocalStep []) (tagKey o) =
      some { l with source := some .localTagger } :=
    mapFind_foldl_local_unique hcl hl hk []
  have hfind : mapFind (mergeMap L O) (tagKey o) =
      some { { l with source := some .localTagger } with
             score := max { l with source := some .localTagger }.score o.score
             source := some .both } :=
    mapFind_foldl_ollama_update hseed hco ho rfl
  have hmem : { l with score := max l.score o.score, source := some .both } ∈
      (mergeMap L O).map (·.2) := value_mem_of_mapFind hfind
  have hkeys : tagKey o ∈ mapKeys (mergeMap L O) := by
    rw [← mapFind_isSome_iff, hfind]
    rfl
  constructor
  · rw [mergeTags_eq_sort]
    rw [(sortByScoreDesc_perm _).countP_eq]
    exact countP_values_eq_one (mapWF_mergeMap L O) hkeys
  · refine ⟨{ l with score := max l.score o.score, source := some .both },
      ?_, hk, rfl, rfl, rfl, rfl⟩
    rw [mergeTags_eq_sort]
    exact mem_sortByScoreDesc.mpr hmem

/-- C2 counterexample: with the local list containing the normalized name
twice, the map seeding keeps the *last* duplicate (JS `Map.set` overwrite), so
the merged score is `max 0 0 = 0`, not the claimed maximum `max 1 0 = 1` of
the matched pair of tags. -/
theorem mergeTags_parityBoost_counterexample :
    ¬∃ t ∈ mergeTags
      [{ name := "a", score := 1, category := .general, source := none },
       { name := "a", score := 0, category := .general, source := none }]
      [{ name := "a", score := 0, category := .general, source := some .ollama }],
      tagKey t = normalizeTag "a" ∧ t.score = max 1 0 := by
  have hkey : normalizeTag "a" = "a" := by decide
  have hmap : mergeMap
      [{ name := "a", score := 1, category := .general, source := none },
       { name := "a", score := 0, category := .general, source := none }]
      [{ name := "a", score := 0, category := .general, source := some .ollama }] =
      [("a", { name := "a", score := max 0 0, category := .general,
               source := some .both })] := by
    simp [mergeMap, mergeOllamaStep, mergeLocalStep, mapFind, mapSet, hkey]
  rw [mergeTags_eq_sort, hmap]
  simp only [List.map_cons, List.map_nil]
  rw [sortByScoreDesc_of_sorted (by simp)]
  rintro ⟨t, ht, _, hsc⟩
  rw [List.mem_singleton] at ht
  subst ht
  rw [max_self] at hsc
  norm_num at hsc

/-- C2 witness: the theorem applied at the spec's parity-boost example,
`local=[{name:"a",score:0.6}]`, `reasoning=[{name:"a",score:0.8}]`. -/
theorem mergeTags_parityBoost_witness :
    ∃ t ∈ mergeTags
      [{ name := "a", score := 0.6, category := .general, source := none }]
      [{ name := "a", score := 0.8, category := .general, source := some .ollama }],
      tagKey t = tagKey { name := "a", score := 0.8, category := .general,
                          source := some .ollama }
      ∧ t.name = "a"
      ∧ t.score = max (0.6 : ℚ) 0.8 ∧ t.category = .general
      ∧ t.source = some .both :=
  (mergeTags_parityBoost
    [{ name := "a", score := 0.6, category := .general, source := none }]
    [{ name := "a", score := 0.8, category := .general, source := some .ollama }]
    { name := "a", score := 0.6, category := .general, source := none }
    { name := "a", score := 0.8, category := .general, source := some .ollama }
    (List.mem_singleton.mpr rfl) (List.mem_singleton.mpr rfl) rfl
    (by decide) (by decide)).2

/-! ## Self-merge machinery (C8) -/

theorem mapFind_middle {pre post : TagMap} {k : String} {v : Tag}
    (hpre : ∀ p ∈ pre, p.1 ≠ k) :
    mapFind (pre ++ (k, v) :: post) k = some v := by
  induction pre with
  | nil => simp [mapFind]
  | cons q pre ih =>
    rw [List.cons_append, mapFind, if_neg (hpre q (List.mem_cons_self _ _))]
    exact ih (fun p hp => hpre p (List.mem_cons_of_mem _ hp))

theorem mapSet_middle {pre post : TagMap} {k : String} {old v : Tag}
    (hpre : ∀ p ∈ pre, p.1 ≠ k) :
    mapSet (pre ++ (k, old) :: post) k v = pre ++ (k, v) :: post := by
  induction pre with
  | nil => simp [mapSet]
  | cons q pre ih =>
    rw [List.cons_append, mapSet, if_neg (hpre q (List.mem_cons_self _ _)),
      ih (fun p hp => hpre p (List.mem_cons_of_mem _ hp)), List.cons_append]

theorem foldl_local_of_fresh {T : List Tag} {m : TagMap}
    (hf : ∀ t ∈ T, tagKey t ∉ mapKeys m) (hnd : (T.map tagKey).Nodup) :
    T.foldl mergeLocalStep m =
      m ++ T.map (fun t => (tagKey t, { t with source := some .localTagger })) := by
  induction T generalizing m with
  | nil => simp
  | cons a as ih =>
    rw [List.foldl_cons]
    have ha : tagKey a ∉ mapKeys m := hf a (List.mem_cons_self _ _)
    have hstep : mergeLocalStep m a =
        m ++ [(tagKey a, { a with source := some .localTagger })] := by
      unfold mergeLocalStep
      exact mapSet_of_not_mem _ ha
    have hnd' : (as.map tagKey).Nodup := by
      rw [List.map_cons, List.nodup_cons] at hnd
      exact hnd.2
    have hfresh' : ∀ t ∈ as, tagKey t ∉
        mapKeys (m ++ [(tagKey a, { a with source := some .localTagger })]) := by
      intro t ht hmem
      rw [mapKeys, List.map_append] at hmem
      rcases List.mem_append.mp hmem with h1 | h1
      · exact hf t (List.mem_cons_of_mem _ ht) h1
      · rw [List.map_cons, List.nodup_cons] at hnd
        have : tagKey t = tagKey a := by simpa using h1
        exact hnd.1 (this ▸ List.mem_map_of_mem _ ht)
    rw [hstep, ih hfresh' hnd']
    simp

theorem foldl_ollama_self (hl : Bool) (A B : List Tag)
    (hnd : ((A ++ B).map tagKey).Nodup) :
    B.foldl (mergeOllamaStep hl)
      (A.map (fun t => (tagKey t, { t with source := some .both })) ++
        B.map (fun t => (tagKey t, { t with source := some .localTagger }))) =
      (A ++ B).map (fun t => (tagKey t, { t with source := some .both })) := by
  induction B generalizing A with
  | nil => simp
  | cons b bs ih =>
    rw [List.foldl_cons, List.map_cons]
    have hdisj : List.Disjoint (A.map tagKey) ((b :: bs).map tagKey) := by
      rw [List.map_append] at hnd
      exact List.disjoint_of_nodup_append hnd
    have hpre : ∀ p ∈ A.map
        (fun t => (tagKey t, { t with source := some TagSource.both })),
        p.1 ≠ normalizeTag b.name := by
      intro p hp he
      obtain ⟨a, ham, hae⟩ := List.mem_map.mp hp
      rw [← hae] at he
      have he' : tagKey a = tagKey b := he
      exact hdisj (List.mem_map_of_mem _ ham)
        (he' ▸ List.mem_map_of_mem _ (List.mem_cons_self b bs))
    have hfind : mapFind
        (A.map (fun t => (tagKey t, { t with source := some TagSource.both })) ++
          (tagKey b, { b with source := some TagSource.localTagger }) ::
          bs.map (fun t => (tagKey t, { t with source := some TagSource.localTagger })))
        (normalizeTag b.name) =
        some { b with source := some TagSource.localTagger } :=
      mapFind_middle hpre
    rw [mergeOllamaStep_found hl hfind,
      show normalizeTag b.name = tagKey b from rfl,
      mapSet_middle (k := tagKey b) hpre]
    have hval : ({ { b with source := some TagSource.localTagger } with
        score := max ({ b with source := some TagSource.localTagger } : Tag).score b.score
        source := some TagSource.both } : Tag) =
        { b with source := some TagSource.both } := by
      simp [max_self]
    rw [hval]
    have hrearr : A.map (fun t => (tagKey t, { t with source := some TagSource.both })) ++
        (tagKey b, { b with source := some TagSource.both }) ::
          bs.map (fun t => (tagKey t, { t with source := some TagSource.localTagger })) =
        (A ++ [b]).map (fun t => (tagKey t, { t with source := some TagSource.both })) ++
          bs.map (fun t => (tagKey t, { t with source := some TagSource.localTagger })) := by
      simp
    have hnd' : (((A ++ [b]) ++ bs).map tagKey).Nodup := by
      rw [List.append_assoc, List.singleton_append]
      exact hnd
    rw [hrearr, ih (A ++ [b]) hnd']
    rw [List.append_assoc, List.singleton_append]

/-- C8: for a tag list `T` deduplicated under name normalization and sorted
descending by score, `mergeTags T T` is `T` itself with every tag's source
promoted to `'both'` — names, scores (max of two equal values), categories and
order all unchanged. -/
theorem mergeTags_selfMerge (T : List Tag)
    (hnd : (T.map tagKey).Nodup)
    (hsorted : T.Pairwise (fun a b => b.score ≤ a.score)) :
    mergeTags T T = T.map (fun t => { t with source := some .both }) := by
  rw [mergeTags_eq_sort, mergeMap]
  have hseed : T.foldl mergeLocalStep [] =
      T.map (fun t => (tagKey t, { t with source := some .localTagger })) := by
    have h := foldl_local_of_fresh (m := []) (by simp [mapKeys]) hnd
    simpa using h
  rw [hseed]
  have hself := foldl_ollama_self (decide (T.length > 0)) [] T (by simpa using hnd)
  simp only [List.map_nil, List.nil_append] at hself
  rw [hself]
  rw [List.map_map]
  have hcomp : ((fun p : String × Tag => p.2) ∘
      (fun t : Tag => (tagKey t, { t with source := some TagSource.both }))) =
      (fun t : Tag => { t with source := some TagSource.both }) := rfl
  rw [hcomp]
  refine sortByScoreDesc_of_sorted ?_
  exact List.Pairwise.map _ (fun {a b} h => h) hsorted

/-- C8 witness: the theorem applied to a two-element deduplicated, descending
tag list. -/
theorem mergeTags_selfMerge_witness :
    mergeTags
      [{ name := "a", score := 1, category := .general, source := none },
       { name := "b", score := 0, category := .meta, source := some .localTagger }]
      [{ name := "a", score := 1, category := .general, source := none },
       { name := "b", score := 0, category := .meta, source := some .localTagger }] =
      [{ name := "a", score := 1, category := .general, source := some .both },
       { name := "b", score := 0, category := .meta, source := some .both }] :=
  mergeTags_selfMerge
    [{ name := "a", score := 1, category := .general, source := none },
     { name := "b", score := 0, category := .meta, source := some .localTagger }]
    (by decide) (by simp [List.pairwise_cons])

/-! ## Local-tagger pipeline lemmas (C4, C7) -/

theorem fetchLocalTags_none_eq (db : TagDb) (data : LocalTagsData) :
    fetchLocalTags db data none =
      sortByScoreDesc (hallucinationFilter ((extractLocalItems data).map (fun p =>
        { name := p.1, score := normalizeScore p.2,
          category := getCategory db p.1 }))) := rfl

theorem fetchLocalTags_some_eq (db : TagDb) (data : LocalTagsData) (m : Nat) :
    fetchLocalTags db data (some m) =
      if 0 < m then
        (sortByScoreDesc (hallucinationFilter ((extractLocalItems data).map (fun p =>
          { name := p.1, score := normalizeScore p.2,
            category := getCategory db p.1 })))).take m
      else
        sortByScoreDesc (hallucinationFilter ((extractLocalItems data).map (fun p =>
          { name := p.1, score := normalizeScore p.2,
            category := getCategory db p.1 }))) := rfl

theorem mem_filtered_of_mem_fetchLocalTags {db : TagDb} {data : LocalTagsData}
    {maxTags : Option Nat} {t : Tag} (ht : t ∈ fetchLocalTags db data maxTags) :
    t ∈ hallucinationFilter ((extractLocalItems data).map (fun p =>
      { name := p.1, score := normalizeScore p.2,
        category := getCategory db p.1 })) := by
  cases maxTags with
  | none =>
    rw [fetchLocalTags_none_eq] at ht
    exact mem_sortByScoreDesc.mp ht
  | some m =>
    rw [fetchLocalTags_some_eq] at ht
    by_cases hm : 0 < m
    · rw [if_pos hm] at ht
      exact mem_sortByScoreDesc.mp (List.mem_of_mem_take ht)
    · rw [if_neg hm] at ht
      exact mem_sortByScoreDesc.mp ht

/-- C4: every score stored by fetchLocalTags is `normalizeScore` of the raw
score (s/100 when s > 1, s otherwise), and — amended — when every raw score of
the response lies in [0, 100], every score in the returned tag list lies in
[0, 1]. -/
theorem fetchLocalTags_scoreNormalization (db : TagDb) (data : LocalTagsData)
    (maxTags : Option Nat)
    (hs : ∀ p ∈ extractLocalItems data, 0 ≤ p.2 ∧ p.2 ≤ 100) :
    ∀ t ∈ fetchLocalTags db data maxTags,
      (∃ p ∈ extractLocalItems data, t.name = p.1 ∧ t.score = normalizeScore p.2)
      ∧ 0 ≤ t.score ∧ t.score ≤ 1 := by
  intro t ht
  have hmem : t ∈ (extractLocalItems data).map (fun p =>
      ({ name := p.1, score := normalizeScore p.2,
         category := getCategory db p.1 } : Tag)) :=
    List.mem_of_mem_filter (mem_filtered_of_mem_fetchLocalTags ht)
  obtain ⟨p, hp, he⟩ := List.mem_map.mp hmem
  have hname : t.name = p.1 := by rw [← he]
  have hscore : t.score = normalizeScore p.2 := by rw [← he]
  obtain ⟨h0, h100⟩ := hs p hp
  refine ⟨⟨p, hp, hname, hscore⟩, ?_, ?_⟩
  · rw [hscore]
    unfold normalizeScore
    split_ifs with h1
    · positivity
    · exact h0
  · rw [hscore]
    unfold normalizeScore
    split_ifs with h1
    · rw [div_le_one (by norm_num)]
      exact h100
    · linarith

/-- C4 witness: the theorem applied to a one-entry response with raw score 1. -/
theorem fetchLocalTags_scoreNormalization_witness :
    (∀ p ∈ extractLocalItems (.objectMap [("a", (1 : ℚ))]), 0 ≤ p.2 ∧ p.2 ≤ 100)
    ∧ ∀ t ∈ fetchLocalTags [] (.objectMap [("a", (1 : ℚ))]) none,
        (∃ p ∈ extractLocalItems (.objectMap [("a", (1 : ℚ))]),
          t.name = p.1 ∧ t.score = normalizeScore p.2)
        ∧ 0 ≤ t.score ∧ t.score ≤ 1 := by
  have hs : ∀ p ∈ extractLocalItems (.objectMap [("a", (1 : ℚ))]),
      0 ≤ p.2 ∧ p.2 ≤ 100 := by
    intro p hp
    rw [show p = ("a", (1 : ℚ)) from by
      simpa [extractLocalItems] using hp]
    norm_num
  exact ⟨hs, fetchLocalTags_scoreNormalization [] _ none hs⟩

/-- C4 counterexample: the code does not clamp — a raw score of 200 is stored
as 200/100 = 2, so the returned list contains a score strictly greater
than 1, contradicting the claimed unconditional invariant 0 ≤ s' ≤ 1. -/
theorem fetchLocalTags_scoreNormalization_counterexample :
    ∃ t ∈ fetchLocalTags [] (.objectMap [("a", (200 : ℚ))]) none, 1 < t.score := by
  have hcat : getCategory [] "a" = .general := by decide
  have hcontains : hallucinationNames.contains "a" = false := by decide
  rw [fetchLocalTags_none_eq]
  rw [show extractLocalItems (.objectMap [("a", (200 : ℚ))]) =
    [("a", (200 : ℚ))] from rfl]
  simp only [List.map_cons, List.map_nil, hcat]
  have hfil : hallucinationFilter
      [{ name := "a", score := normalizeScore 200, category := .general,
         source := none }] =
      [{ name := "a", score := normalizeScore 200, category := .general,
         source := none }] := rfl
  rw [hfil, sortByScoreDesc_of_sorted (by simp)]
  refine ⟨_, List.mem_singleton.mpr rfl, ?_⟩
  show (1 : ℚ) < normalizeScore 200
  norm_num [normalizeScore]

/-- C7: a hallucination-listed tag (`blue_skin`/`colored_skin`) whose
normalized score is below 0.85 never appears in fetchLocalTags output; the
hallucination filter retains such a tag at score 0.85 or above and never
removes a tag with any other name; and — amended — the retained tag reaches
the final output when no maxTags truncation is in effect (truncation can drop
it, see the counterexample). -/
theorem fetchLocalTags_hallucinationSuppression (db : TagDb)
    (data : LocalTagsData) (maxTags : Option Nat) :
    (∀ t ∈ fetchLocalTags db data maxTags,
        t.name ∈ hallucinationNames → (0.85 : ℚ) ≤ t.score)
    ∧ (∀ (tags : List Tag), ∀ t ∈ tags,
        ¬(t.name ∈ hallucinationNames ∧ t.score < 0.85) →
        t ∈ hallucinationFilter tags)
    ∧ (∀ (tags : List Tag), ∀ t ∈ tags,
        t.name ∉ hallucinationNames → t ∈ hallucinationFilter tags)
    ∧ (∀ t ∈ hallucinationFilter ((extractLocalItems data).map (fun p =>
        { name := p.1, score := normalizeScore p.2,
          category := getCategory db p.1 })),
        t ∈ fetchLocalTags db data none) := by
  have hkeep : ∀ (tags : List Tag), ∀ t ∈ tags,
      ¬(t.name ∈ hallucinationNames ∧ t.score < 0.85) →
      t ∈ hallucinationFilter tags := by
    intro tags t ht hnot
    unfold hallucinationFilter
    rw [List.mem_filter]
    refine ⟨ht, ?_⟩
    rw [Bool.not_eq_true']
    rw [Bool.and_eq_false_iff]
    by_cases hn : t.name ∈ hallucinationNames
    · right
      rw [decide_eq_false_iff_not]
      exact fun hlt => hnot ⟨hn, hlt⟩
    · left
      rw [show hallucinationNames.contains t.name =
        decide (t.name ∈ hallucinationNames) from List.elem_eq_mem _ _,
        decide_eq_false_iff_not]
      exact hn
  refine ⟨?_, hkeep, ?_, ?_⟩
  · intro t ht hn
    have hf := mem_filtered_of_mem_fetchLocalTags ht
    unfold hallucinationFilter at hf
    rw [List.mem_filter] at hf
    have hb := hf.2
    rw [Bool.not_eq_true', Bool.and_eq_false_iff] at hb
    rcases hb with hb | hb
    · rw [show hallucinationNames.contains t.name =
        decide (t.name ∈ hallucinationNames) from List.elem_eq_mem _ _,
        decide_eq_false_iff_not] at hb
      exact absurd hn hb
    · rw [decide_eq_false_iff_not] at hb
      linarith [not_lt.mp hb]
  · intro tags t ht hn
    exact hkeep tags t ht (fun h => hn h.1)
  · intro t ht
    rw [fetchLocalTags_none_eq]
    exact mem_sortByScoreDesc.mpr ht

/-- C7 witness: a `blue_skin` tag with raw (and normalized) score 1 passes the
filter, reaches the untruncated output, and the exclusion bound applies. -/
theorem fetchLocalTags_hallucinationSuppression_witness :
    (0.85 : ℚ) ≤ normalizeScore 1 := by
  have h := fetchLocalTags_hallucinationSuppression []
    (.objectMap [("blue_skin", (1 : ℚ))]) none
  have hmem0 : ({ name := "blue_skin", score := normalizeScore 1, category := getCategory [] "blue_skin", source := none } : Tag) ∈
      (extractLocalItems (.objectMap [("blue_skin", (1 : ℚ))])).map (fun p =>
        { name := p.1, score := normalizeScore p.2,
          category := getCategory [] p.1 }) := by
    rw [show extractLocalItems (.objectMap [("blue_skin", (1 : ℚ))]) =
      [("blue_skin", (1 : ℚ))] from rfl]
    simp
  have hfil := h.2.1 _ _ hmem0 (by
    rintro ⟨_, hlt⟩
    norm_num [normalizeScore] at hlt)
  have hout := h.2.2.2 _ hfil
  have hb := h.1 _ hout (by decide)
  simpa using hb

/-- C7 counterexample: a `blue_skin` tag with score 0.9 (≥ 0.85) survives the
hallucination filter but is dropped from the returned list by the client-side
`maxTags` truncation, so "retained in the output" fails as an unconditional
claim about fetchLocalTags. -/
theorem fetchLocalTags_hallucinationSuppression_counterexample :
    ¬∃ t ∈ fetchLocalTags []
      (.objectMap [("a", (1 : ℚ)), ("blue_skin", (0.9 : ℚ))]) (some 1),
      t.name = "blue_skin" := by
  have hcatA : getCategory [] "a" = .general := by decide
  have hcatB : getCategory [] "blue_skin" = .general := by decide
  have hca : hallucinationNames.contains "a" = false := by decide
  have hcb : hallucinationNames.contains "blue_skin" = true := by decide
  have hdecB : decide ((normalizeScore 0.9 : ℚ) < 0.85) = false := by
    rw [decide_eq_false_iff_not]
    norm_num [normalizeScore]
  rw [fetchLocalTags_some_eq]
  rw [show extractLocalItems (.objectMap [("a", (1 : ℚ)), ("blue_skin", (0.9 : ℚ))]) =
    [("a", (1 : ℚ)), ("blue_skin", (0.9 : ℚ))] from rfl]
  rw [if_pos (by norm_num : (0 : Nat) < 1)]
  simp only [List.map_cons, List.map_nil, hcatA, hcatB]
  have hfil : hallucinationFilter
      [{ name := "a", score := normalizeScore 1, category := .general,
         source := none },
       { name := "blue_skin", score := normalizeScore 0.9, category := .general,
         source := none }] =
      [{ name := "a", score := normalizeScore 1, category := .general,
         source := none },
       { name := "blue_skin", score := normalizeScore 0.9, category := .general,
         source := none }] := by
    unfold hallucinationFilter
    simp only [List.filter_cons, List.filter_nil, hca, hcb, hdecB]
    simp
  rw [hfil]
  rw [sortByScoreDesc_of_sorted (by
    simp only [List.pairwise_cons, List.mem_singleton, List.Pairwise.nil,
      List.not_mem_nil, false_implies, implies_true, and_true]
    intro t ht
    subst ht
    norm_num [normalizeScore])]
  simp only [List.take_succ_cons, List.take_zero]
  rintro ⟨t, ht, hname⟩
  rw [List.mem_singleton] at ht
  subst ht
  exact absurd hname (by decide)

/-! ## Classifier claims (C5) -/

/-- C5: getCategory is total (defined for every input string, so it cannot
throw), always returns one of the six categories, and a name that is absent
from the loaded table and matches neither the rating heuristic nor the
meta-keyword set yields `general` (the count-pattern heuristic and the final
default both map to `general`). -/
theorem getCategory_total_and_fallback (db : TagDb) (s : String)
    (hdb : dbGet db s = none)
    (hrat : jsStartsWith s "rating:" = false)
    (hratw : s ∉ ratingWords)
    (hmeta : s ∉ metaWords) :
    getCategory db s = .general
    ∧ ∀ (db' : TagDb) (s' : String),
        getCategory db' s' ∈ [TagCategory.general, .character, .copyright,
          .artist, .meta, .rating] := by
  constructor
  · unfold getCategory
    rw [hdb]
    have h1 : (jsStartsWith s "rating:" || ratingWords.contains s) = false := by
      rw [hrat, show ratingWords.contains s =
        decide (s ∈ ratingWords) from List.elem_eq_mem _ _]
      simp [hratw]
    have h2 : metaWords.contains s = false := by
      rw [show metaWords.contains s =
        decide (s ∈ metaWords) from List.elem_eq_mem _ _]
      simp [hmeta]
    rw [h1, h2]
    simp only [Bool.false_eq_true, if_false]
    split_ifs <;> rfl
  · intro db' s'
    unfold getCategory
    rcases dbGet db' s' with _ | c
    · split_ifs <;> simp
    · cases c <;> simp

/-- C5 witness: the theorem applied to a unicode string absent from a
non-empty table. -/
theorem getCategory_total_and_fallback_witness :
    getCategory [("x", .meta)] "café☃" = .general :=
  (getCategory_total_and_fallback [("x", .meta)] "café☃"
    (by decide) (by decide) (by decide) (by decide)).1

/-! ## Sanitization claims (C6) -/

/-- C6: for every regex-engine Unicode Letter/Number tables and every input,
sanitizeDescription returns exactly the characters of the input that are
letters, digits, whitespace, or in the fixed punctuation allow-list, in
order (it equals the filter by that set, hence is a sublist containing no
disallowed character and keeping every allowed character); in particular the
em-dash — not a letter, digit, whitespace, or allow-list member — is always
removed while allowed characters such as commas and parentheses survive. -/
theorem sanitizeDescription_allowlist (pL pN : Char → Bool) (s : List Char)
    (hL : pL '—' = false) (hN : pN '—' = false) :
    sanitizeDescription pL pN s = s.filter (sanitizeAllowed pL pN)
    ∧ (∀ c ∈ sanitizeDescription pL pN s, sanitizeAllowed pL pN c = true)
    ∧ (sanitizeDescription pL pN s).Sublist s
    ∧ '—' ∉ sanitizeDescription pL pN s
    ∧ (∀ c ∈ s, sanitizeAllowed pL pN c = true → c ∈ sanitizeDescription pL pN s) := by
  have hfil : ∀ l : List Char,
      sanitizeDescription pL pN l = l.filter (sanitizeAllowed pL pN) := by
    intro l
    induction l with
    | nil => rfl
    | cons c cs ih =>
      rw [sanitizeDescription, List.filter_cons]
      by_cases hc : sanitizeAllowed pL pN c = true
      · rw [if_pos hc, if_pos hc, ih]
      · rw [if_neg hc, if_neg hc, ih]
  have hdash : sanitizeAllowed pL pN '—' = false := by
    unfold sanitizeAllowed
    rw [hL, hN]
    decide
  refine ⟨hfil s, ?_, ?_, ?_, ?_⟩
  · intro c hc
    rw [hfil s] at hc
    exact (List.mem_filter.mp hc).2
  · rw [hfil s]
    exact List.filter_sublist s
  · intro hc
    rw [hfil s] at hc
    have := (List.mem_filter.mp hc).2
    rw [hdash] at this
    cases this
  · intro c hc hall
    rw [hfil s]
    exact List.mem_filter.mpr ⟨hc, hall⟩

/-- C6 witness: the theorem applied with empty letter/digit tables to the
spec's example fragment; the filter equation and the em-dash removal are
instantiated. -/
theorem sanitizeDescription_allowlist_witness :
    sanitizeDescription (fun _ => false) (fun _ => false) "a—, (b)".data =
      "a—, (b)".data.filter (sanitizeAllowed (fun _ => false) (fun _ => false))
    ∧ '—' ∉ sanitizeDescription (fun _ => false) (fun _ => false) "a—, (b)".data :=
  ⟨(sanitizeDescription_allowlist (fun _ => false) (fun _ => false)
      "a—, (b)".data rfl rfl).1,
   (sanitizeDescription_allowlist (fun _ => false) (fun _ => false)
      "a—, (b)".data rfl rfl).2.2.2.1⟩

/-! ## Copyright resolution claims (C9) -/

theorem fetchOllamaCopyrights_eq (db : TagDb) {characters : List String}
    (names : List String) (hch : characters ≠ []) :
    fetchOllamaCopyrights db true characters (some names) =
      names.map (fun name =>
        if isTagInCategory db (normalizeTag name) .copyright then
          { name := normalizeTag name, score := 0.9, category := .copyright,
            source := some .ollama }
        else
          { name := normalizeTag name, score := 0.85, category := .copyright,
            source := some .ollama }) := by
  have hie : characters.isEmpty = false := by
    cases characters with
    | nil => exact absurd rfl hch
    | cons a as => rfl
  unfold fetchOllamaCopyrights
  rw [hie]
  rfl

theorem fetchOllamaCopyrightsV2_eq (db : TagDb) {characters : List String}
    (names : List String) (hch : characters ≠ []) :
    fetchOllamaCopyrightsV2 db true characters (some names) =
      names.filterMap (fun name =>
        if isTagInCategory db (normalizeTag name) .copyright then
          some { name := normalizeTag name, score := 0.8, category := .copyright,
                 source := some .ollama }
        else none) := by
  have hie : characters.isEmpty = false := by
    cases characters with
    | nil => exact absurd rfl hch
    | cons a as => rfl
  unfold fetchOllamaCopyrightsV2
  rw [hie]
  rfl

/-- C9: in the first variant of fetchOllamaCopyrights every name parsed from
the model's JSON array is normalized and emitted with category `'copyright'`,
scoring 0.9 when confirmed in the reference vocabulary and 0.85 — strictly
lower — otherwise; in the second variant (amended) only confirmed names are
emitted, each at score 0.8 with category `'copyright'`, and an unconfirmed
name is dropped entirely rather than emitted. -/
theorem fetchOllamaCopyrights_provenanceScores (db : TagDb)
    (characters names : List String) (n : String)
    (hch : characters ≠ []) (hn : n ∈ names) :
    (∃ t ∈ fetchOllamaCopyrights db true characters (some names),
        t.name = normalizeTag n ∧ t.category = .copyright
        ∧ t.score = (if isTagInCategory db (normalizeTag n) .copyright
            then (0.9 : ℚ) else 0.85))
    ∧ ((0.85 : ℚ) < 0.9)
    ∧ (∀ t ∈ fetchOllamaCopyrightsV2 db true characters (some names),
        isTagInCategory db t.name .copyright = true
        ∧ t.score = 0.8 ∧ t.category = .copyright)
    ∧ (isTagInCategory db (normalizeTag n) .copyright = false →
        ∀ t ∈ fetchOllamaCopyrightsV2 db true characters (some names),
          t.name ≠ normalizeTag n) := by
  have hv2 : ∀ t ∈ fetchOllamaCopyrightsV2 db true characters (some names),
      isTagInCategory db t.name .copyright = true
      ∧ t.score = 0.8 ∧ t.category = .copyright := by
    intro t ht
    rw [fetchOllamaCopyrightsV2_eq db names hch] at ht
    obtain ⟨a, ham, hae⟩ := List.mem_filterMap.mp ht
    by_cases hk : isTagInCategory db (normalizeTag a) .copyright = true
    · rw [if_pos hk] at hae
      have ht' : t = { name := normalizeTag a, score := 0.8, category := .copyright, source := some .ollama } := by
        injection hae with h
        exact h.symm
      rw [ht']
      exact ⟨hk, rfl, rfl⟩
    · rw [if_neg hk] at hae
      cases hae
  refine ⟨?_, by norm_num, hv2, ?_⟩
  · rw [fetchOllamaCopyrights_eq db names hch]
    by_cases hk : isTagInCategory db (normalizeTag n) .copyright = true
    · refine ⟨{ name := normalizeTag n, score := 0.9, category := .copyright, source := some .ollama }, ?_, rfl, rfl, by rw [if_pos hk]⟩
      refine List.mem_map.mpr ⟨n, hn, ?_⟩
      rw [if_pos hk]
    · refine ⟨{ name := normalizeTag n, score := 0.85, category := .copyright, source := some .ollama }, ?_, rfl, rfl, by rw [if_neg hk]⟩
      refine List.mem_map.mpr ⟨n, hn, ?_⟩
      rw [if_neg hk]
  · intro hneg t ht he
    have := (hv2 t ht).1
    rw [he, hneg] at this
    cases this

/-- C9 witness: the theorem applied with an empty vocabulary and the single
model-returned name "foo". -/
theorem fetchOllamaCopyrights_provenanceScores_witness :
    ∃ t ∈ fetchOllamaCopyrights [] true ["c"] (some ["foo"]),
      t.name = normalizeTag "foo" ∧ t.category = .copyright
      ∧ t.score = (if isTagInCategory [] (normalizeTag "foo") .copyright
          then (0.9 : ℚ) else 0.85) :=
  (fetchOllamaCopyrights_provenanceScores [] ["c"] ["foo"] "foo"
    (by decide) (by decide)).1

/-- C9 counterexample: in the second source variant (geminiService.ts:
1607-1621) a parsed name that is not confirmed as a copyright tag in the
vocabulary is dropped, so "every name extracted ... is emitted" is false
there: the model-returned name "foo" yields an empty tag list. -/
theorem fetchOllamaCopyrightsV2_dropsUnconfirmed_counterexample :
    ¬∃ t ∈ fetchOllamaCopyrightsV2 [] true ["c"] (some ["foo"]),
      t.name = normalizeTag "foo" := by
  intro ⟨t, ht, _⟩
  have : fetchOllamaCopyrightsV2 [] true ["c"] (some ["foo"]) = [] := by decide
  rw [this] at ht
  cases ht

/-! ## Enrichment claims (C10) -/

theorem enrichStep_some_eq (db : TagDb) (st : EnrichState) (tag : Tag)
    {g : List Char} (hg : extractSeries tag.name.data = some g) :
    enrichStep db st tag =
      if (isTagInCategory db (normalizeTag ⟨g⟩) .copyright
          && !st.existingNames.contains (normalizeTag ⟨g⟩)) = true then
        { st with
          newTags := st.newTags ++
            [{ name := normalizeTag ⟨g⟩, score := tag.score, category := .copyright, source := tag.source }],
          existingNames := st.existingNames ++ [normalizeTag ⟨g⟩] }
      else if (!st.existingNames.contains (normalizeTag ⟨g⟩)) = true then
        { st with
          charactersNeedingLookup := st.charactersNeedingLookup ++ [tag.name] }
      else st := by
  unfold enrichStep
  rw [hg]

theorem enrichStep_none_eq (db : TagDb) (st : EnrichState) (tag : Tag)
    (hg : extractSeries tag.name.data = none) :
    enrichStep db st tag =
      if tag.category = .character then
        { st with
          charactersNeedingLookup := st.charactersNeedingLookup ++ [tag.name] }
      else st := by
  unfold enrichStep
  rw [hg]

theorem enrichStep_newTags_append (db : TagDb) (st : EnrichState) (tag : Tag) :
    ∃ e : List Tag, (enrichStep db st tag).newTags = st.newTags ++ e
      ∧ ∀ x ∈ e, x.category = .copyright := by
  cases hg : extractSeries tag.name.data with
  | some g =>
    rw [enrichStep_some_eq db st tag hg]
    by_cases h1 : (isTagInCategory db (normalizeTag ⟨g⟩) .copyright
        && !st.existingNames.contains (normalizeTag ⟨g⟩)) = true
    · rw [if_pos h1]
      exact ⟨[{ name := normalizeTag ⟨g⟩, score := tag.score, category := .copyright, source := tag.source }],
        rfl, by simp⟩
    · rw [if_neg h1]
      by_cases h2 : (!st.existingNames.contains (normalizeTag ⟨g⟩)) = true
      · rw [if_pos h2]
        exact ⟨[], by simp, by simp⟩
      · rw [if_neg h2]
        exact ⟨[], by simp, by simp⟩
  | none =>
    rw [enrichStep_none_eq db st tag hg]
    by_cases h1 : tag.category = .character
    · rw [if_pos h1]
      exact ⟨[], by simp, by simp⟩
    · rw [if_neg h1]
      exact ⟨[], by simp, by simp⟩

theorem foldl_enrichStep_newTags_append (db : TagDb) (L : List Tag) :
    ∀ st : EnrichState,
      ∃ e : List Tag, (L.foldl (enrichStep db) st).newTags = st.newTags ++ e
        ∧ ∀ x ∈ e, x.category = .copyright := by
  induction L with
  | nil => exact fun st => ⟨[], by simp, by simp⟩
  | cons a as ih =>
    intro st
    obtain ⟨e1, he1, hc1⟩ := enrichStep_newTags_append db st a
    obtain ⟨e2, he2, hc2⟩ := ih (enrichStep db st a)
    refine ⟨e1 ++ e2, ?_, ?_⟩
    · rw [List.foldl_cons, he2, he1, List.append_assoc]
    · intro x hx
      rcases List.mem_append.mp hx with h | h
      · exact hc1 x h
      · exact hc2 x h

theorem fetchOllamaCopyrights_all_copyright (db : TagDb) (he : Bool)
    (chs : List String) (reply : Option (List String)) :
    ∀ t ∈ fetchOllamaCopyrights db he chs reply, t.category = .copyright := by
  intro t ht
  unfold fetchOllamaCopyrights at ht
  by_cases hg : (!he || chs.isEmpty) = true
  · rw [if_pos hg] at ht
    cases ht
  · rw [if_neg hg] at ht
    cases reply with
    | none => cases ht
    | some copyrights =>
      obtain ⟨a, _, hae⟩ := List.mem_map.mp ht
      by_cases hk : isTagInCategory db (normalizeTag a) .copyright = true
      · rw [if_pos hk] at hae
        rw [← hae]
      · rw [if_neg hk] at hae
        rw [← hae]

theorem foldl_mergeLookup_append (R : List Tag) :
    ∀ acc : List Tag × List String,
      ∃ e : List Tag,
        (R.foldl (fun acc tag =>
          if acc.2.contains tag.name then acc
          else (acc.1 ++ [tag], acc.2 ++ [tag.name])) acc).1 = acc.1 ++ e
        ∧ ∀ x ∈ e, x ∈ R := by
  induction R with
  | nil => exact fun acc => ⟨[], by simp, by simp⟩
  | cons a as ih =>
    intro acc
    rw [List.foldl_cons]
    by_cases h1 : acc.2.contains a.name = true
    · rw [if_pos h1]
      obtain ⟨e, he, hm⟩ := ih acc
      exact ⟨e, he, fun x hx => List.mem_cons_of_mem _ (hm x hx)⟩
    · rw [if_neg h1]
      obtain ⟨e, he, hm⟩ := ih (acc.1 ++ [a], acc.2 ++ [a.name])
      refine ⟨[a] ++ e, ?_, ?_⟩
      · rw [he]
        simp
      · intro x hx
        rcases List.mem_append.mp hx with h | h
        · rw [List.mem_singleton.mp h]
          exact List.mem_cons_self _ _
        · exact List.mem_cons_of_mem _ (hm x h)

theorem enrichTagsWithCopyrights_eq (db : TagDb) (hasEndpoint : Bool)
    (reply : Option (List String)) (cur : List Tag) :
    enrichTagsWithCopyrights db hasEndpoint reply cur =
      sortByScoreDesc (
        if (!(cur.foldl (enrichStep db)
              ⟨cur, cur.map (·.name), []⟩).charactersNeedingLookup.isEmpty
            && hasEndpoint) = true then
          ((fetchOllamaCopyrights db hasEndpoint
            (cur.foldl (enrichStep db)
              ⟨cur, cur.map (·.name), []⟩).charactersNeedingLookup reply).foldl
            (fun acc tag =>
              if acc.2.contains tag.name then acc
              else (acc.1 ++ [tag], acc.2 ++ [tag.name]))
            ((cur.foldl (enrichStep db) ⟨cur, cur.map (·.name), []⟩).newTags,
             (cur.foldl (enrichStep db)
               ⟨cur, cur.map (·.name), []⟩).existingNames)).1
        else
          (cur.foldl (enrichStep db) ⟨cur, cur.map (·.name), []⟩).newTags) := rfl

theorem enrichTagsWithCopyrights_decomp (db : TagDb) (hasEndpoint : Bool)
    (reply : Option (List String)) (currentTags : List Tag) :
    ∃ extra : List Tag,
      enrichTagsWithCopyrights db hasEndpoint reply currentTags =
        sortByScoreDesc (currentTags ++ extra)
      ∧ ∀ x ∈ extra, x.category = .copyright := by
  rw [enrichTagsWithCopyrights_eq]
  obtain ⟨e1, he1, hc1⟩ := foldl_enrichStep_newTags_append db currentTags
    ⟨currentTags, currentTags.map (·.name), []⟩
  by_cases hcond : (!(currentTags.foldl (enrichStep db)
      ⟨currentTags, currentTags.map (·.name), []⟩).charactersNeedingLookup.isEmpty
        && hasEndpoint) = true
  · rw [if_pos hcond]
    obtain ⟨e2, he2, hm2⟩ := foldl_mergeLookup_append
      (fetchOllamaCopyrights db hasEndpoint
        (currentTags.foldl (enrichStep db)
          ⟨currentTags, currentTags.map (·.name), []⟩).charactersNeedingLookup reply)
      ((currentTags.foldl (enrichStep db)
          ⟨currentTags, currentTags.map (·.name), []⟩).newTags,
       (currentTags.foldl (enrichStep db)
          ⟨currentTags, currentTags.map (·.name), []⟩).existingNames)
    refine ⟨e1 ++ e2, ?_, ?_⟩
    · rw [he2, he1, List.append_assoc]
    · intro x hx
      rcases List.mem_append.mp hx with h | h
      · exact hc1 x h
      · exact fetchOllamaCopyrights_all_copyright db hasEndpoint _ reply x (hm2 x h)
  · rw [if_neg hcond]
    exact ⟨e1, by rw [he1], hc1⟩

/-- C10: copyright enrichment never removes or mutates its input — the output
of enrichTagsWithCopyrights is a permutation of the input plus zero or more
tags of category `'copyright'`, sorted descending by score, and every input
tag (name, score, category, source intact) is a member of the output. -/
theorem enrichTagsWithCopyrights_preservesInput (db : TagDb)
    (hasEndpoint : Bool) (reply : Option (List String))
    (currentTags : List Tag) :
    ∃ extra : List Tag,
      (enrichTagsWithCopyrights db hasEndpoint reply currentTags).Perm
        (currentTags ++ extra)
      ∧ (∀ t ∈ extra, t.category = .copyright)
      ∧ (enrichTagsWithCopyrights db hasEndpoint reply currentTags).Pairwise
          (fun a b => b.score ≤ a.score)
      ∧ ∀ t ∈ currentTags,
          t ∈ enrichTagsWithCopyrights db hasEndpoint reply currentTags := by
  obtain ⟨extra, heq, hcat⟩ :=
    enrichTagsWithCopyrights_decomp db hasEndpoint reply currentTags
  refine ⟨extra, ?_, hcat, ?_, ?_⟩
  · rw [heq]
    exact sortByScoreDesc_perm _
  · rw [heq]
    exact sortByScoreDesc_sorted _
  · intro t ht
    rw [heq]
    exact mem_sortByScoreDesc.mpr (List.mem_append_left _ ht)

/-! ## Orchestrator claims (C3) -/

theorem mergeTags_nil_nil : mergeTags [] [] = [] := by
  rw [mergeTags_eq_sort]
  rw [show mergeMap [] [] = [] from rfl]
  simp [sortByScoreDesc]

/-- C3: the hybrid pipeline absorbs every stage failure locally and always
returns an InterrogationResult (the model is a total function of the stage
outcomes); when the local fetch and the enrichment both fail and the
reasoning stage yields its own caught-failure value `{tags: [], summary: ""}`,
the result has an empty tags array and — amended — naturalDescription is the
empty string when the reasoning stage is enabled (it is undefined only when
the stage is disabled, or in the unreachable case of the reasoning promise
itself rejecting). -/
theorem generateTagsLocalHybrid_degradesGracefully
    (e1 : String) (ef : List Tag → String) (enableNL : Bool) :
    (generateTagsLocalHybrid (.error e1) (fun t => .error (ef t)) enableNL
        (fun _ => .ok ollamaFailureValue) =
      { tags := [], naturalDescription := if enableNL then some "" else none })
    ∧ (generateTagsLocalHybrid (.error e1) (fun t => .error (ef t)) enableNL
        (fun t => .error (ef t)) =
      { tags := [], naturalDescription := none }) := by
  constructor
  · cases enableNL with
    | true =>
      have h : generateTagsLocalHybrid (.error e1) (fun t => .error (ef t)) true
          (fun _ => .ok ollamaFailureValue) =
          { tags := mergeTags [] [], naturalDescription := some "" } := rfl
      rw [h, mergeTags_nil_nil]
      rfl
    | false =>
      have h : generateTagsLocalHybrid (.error e1) (fun t => .error (ef t)) false
          (fun _ => .ok ollamaFailureValue) =
          { tags := mergeTags [] [], naturalDescription := none } := rfl
      rw [h, mergeTags_nil_nil]
      rfl
  · cases enableNL with
    | true =>
      have h : generateTagsLocalHybrid (.error e1) (fun t => .error (ef t)) true
          (fun t => .error (ef t)) =
          { tags := mergeTags [] [], naturalDescription := none } := rfl
      rw [h, mergeTags_nil_nil]
    | false =>
      have h : generateTagsLocalHybrid (.error e1) (fun t => .error (ef t)) false
          (fun t => .error (ef t)) =
          { tags := mergeTags [] [], naturalDescription := none } := rfl
      rw [h, mergeTags_nil_nil]

/-- C3 counterexample: with natural language enabled and every stage failing,
the result's naturalDescription is the empty string `""` (the reasoning
client's own catch returns `{tags: [], summary: ""}`), not `undefined` as the
claim states; the tags array is empty as claimed. -/
theorem generateTagsLocalHybrid_counterexample :
    (generateTagsLocalHybrid (.error "network error")
      (fun _ => .error "enrichment failed") true
      (fun _ => .ok ollamaFailureValue)).naturalDescription ≠ none
    ∧ (generateTagsLocalHybrid (.error "network error")
      (fun _ => .error "enrichment failed") true
      (fun _ => .ok ollamaFailureValue)).tags = [] := by
  constructor
  · show some "" ≠ none
    simp
  · show mergeTags [] [] = []
    exact mergeTags_nil_nil
